import Mathlib

/-!
Shallow embedding of the block-based virtual file system Durable Object
(`src/blocks.ts`, class `VirtualFileSystemBlockDO`).

Modelling conventions:
* JS strings (paths) are `List Char`; byte contents (`ArrayBuffer`) are
  `List Nat`.
* The two SQLite tables (`files`, `blocks`) are association lists; SQL
  point lookups, upserts and filtered deletes are translated row by row.
* `Date.now()` is modelled as an explicit `now : Nat` parameter of each
  mutating operation (one value per top-level operation).
* SQLite `LIKE` is modelled faithfully: `%` matches any character
  sequence, `_` matches one character, and comparison of ordinary
  pattern characters is ASCII-case-insensitive (SQLite's default).
* Thrown `Error`s (`ENOENT: ...`, `ENOTEMPTY: ...`) become
  `Except FSError`; a cursor's `.one()` on zero rows is the falsy value
  the code tests for, i.e. `Option.none` here.
* Recursions that the source drives by loops or by recursion on the
  parent path are given an explicit fuel that is proven (or chosen)
  large enough; the fuel-0 branches are unreachable at the call sites
  used below.
-/

namespace VFS

abbrev Bytes := List Nat

abbrev Path := List Char

/-- `const BLOCK_SIZE = 4096` (src/blocks.ts line 3). -/
def BLOCK_SIZE : Nat := 4096

/-- The `type` column of the `files` table: `CHECK (type IN ('file', 'directory'))`. -/
inductive FType where
  | file
  | directory
deriving DecidableEq

/-- One row of the `files` table (src/blocks.ts lines 21-27). -/
structure Entry where
  type : FType
  size : Option Nat
  created_at : Nat
  updated_at : Nat
deriving DecidableEq

/-- The SQLite state of one Durable Object: the `files` table and the
`blocks` table (keyed by `(path, block_number)`). -/
structure DOState where
  files : List (Path × Entry)
  blocks : List ((Path × Nat) × Bytes)
deriving DecidableEq

/-- A freshly constructed Durable Object: both tables empty. -/
def emptyState : DOState := ⟨[], []⟩

/-- The two error kinds the engine throws: `ENOENT` and `ENOTEMPTY`. -/
inductive FSError where
  | ENOENT
  | ENOTEMPTY
deriving DecidableEq

/-- JS `path.split("/")`: splits at every `'/'`, keeping empty segments;
`"".split("/")` is `[""]`. -/
def splitSlash : Path → List Path
  | [] => [[]]
  | c :: rest =>
    if c = '/' then [] :: splitSlash rest
    else
      match splitSlash rest with
      | [] => [[c]]
      | seg :: segs => (c :: seg) :: segs

/-- JS `parts.join("/")`. -/
def joinSlash : List Path → Path
  | [] => []
  | [s] => s
  | s :: s' :: rest => s ++ '/' :: joinSlash (s' :: rest)

/-- `path.split("/").slice(0, -1).join("/")` — the parent directory
computation used by `writeFile` and `mkdir` (src/blocks.ts lines 95, 162). -/
def parentOf (p : Path) : Path := joinSlash (splitSlash p).dropLast

/-- `parts[parts.length - 1]` after `row.path.split("/")` — the name a
`readdir` result row is mapped to (src/blocks.ts lines 217-220). -/
def lastSegment (p : Path) : Path := (splitSlash p).getLastD []

/-- ASCII lower-casing of one character, as SQLite's default `LIKE`
applies it (only `A`-`Z` fold). -/
def lowerChar (c : Char) : Char :=
  if 65 ≤ c.toNat ∧ c.toNat ≤ 90 then Char.ofNat (c.toNat + 32) else c

/-- ASCII lower-casing of a string. -/
def low (s : Path) : Path := s.map lowerChar

/-- SQLite `LIKE` matching with explicit fuel (structural recursion
device; any fuel above `pat.length + s.length` computes the match). -/
def likeFuel : Nat → Path → Path → Bool
  | 0, _, _ => false
  | _ + 1, [], s => s.isEmpty
  | fuel + 1, c :: ps, [] =>
    if c = '%' then likeFuel fuel ps [] else false
  | fuel + 1, c :: ps, d :: s' =>
    if c = '%' then likeFuel fuel ps (d :: s') || likeFuel fuel (c :: ps) s'
    else (if c = '_' then true else lowerChar c == lowerChar d) && likeFuel fuel ps s'

/-- `s LIKE pat` under SQLite's default semantics: `%` matches any
sequence (including `/`), `_` matches one character, plain characters
compare ASCII-case-insensitively. -/
def likeMatch (pat s : Path) : Bool := likeFuel (pat.length + s.length + 1) pat s

/-- The loop body of `splitIntoBlocks` (src/blocks.ts lines 44-59),
with the loop index `i` replaced by the block counter and explicit fuel
(`data.length` steps always suffice since each step drops
`BLOCK_SIZE ≥ 1` bytes). -/
def splitGo : Nat → Bytes → Nat → List (Nat × Bytes)
  | 0, _, _ => []
  | fuel + 1, data, i =>
    if data.isEmpty then []
    else (i, data.take BLOCK_SIZE) :: splitGo fuel (data.drop BLOCK_SIZE) (i + 1)

/-- `splitIntoBlocks(content)`: chops the content into `BLOCK_SIZE`
chunks, numbering them 0, 1, 2, … . -/
def splitIntoBlocks (content : Bytes) : List (Nat × Bytes) :=
  splitGo content.length content 0

/-- `result.set(blockData, offset)` on a `Uint8Array` buffer: overwrite
`data.length` bytes starting at `off` (all uses below stay in bounds). -/
def writeAt (buf : Bytes) (off : Nat) (data : Bytes) : Bytes :=
  buf.take off ++ data ++ buf.drop (off + data.length)

/-- `SELECT ... FROM files WHERE path = ?` followed by `.one()`:
the first row keyed by `p`, if any. -/
def findRow (p : Path) : List (Path × Entry) → Option Entry
  | [] => none
  | (q, e) :: rest => if q = p then some e else findRow p rest

/-- The `writeFile` upsert (src/blocks.ts lines 109-119):
`INSERT ... VALUES (?, 'file', ?, ?, ?) ON CONFLICT (path) DO UPDATE SET
size = excluded.size, updated_at = excluded.updated_at`.
On conflict only `size` and `updated_at` change — `type` and
`created_at` are left as they were. -/
def upsertFile (p : Path) (len now : Nat) : List (Path × Entry) → List (Path × Entry)
  | [] => [(p, ⟨FType.file, some len, now, now⟩)]
  | (q, e) :: rest =>
    if q = p then (q, { e with size := some len, updated_at := now }) :: rest
    else (q, e) :: upsertFile p len now rest

/-- The `mkdir` insert (src/blocks.ts lines 167-173):
`INSERT OR IGNORE INTO files VALUES (?, 'directory', NULL, ?, ?)`. -/
def insertDirIfAbsent (p : Path) (now : Nat) (fs : List (Path × Entry)) : List (Path × Entry) :=
  if (findRow p fs).isSome then fs
  else fs ++ [(p, ⟨FType.directory, none, now, now⟩)]

/-- `DELETE FROM blocks WHERE path = ?` — also the effect of the
`ON DELETE CASCADE` clause when the `files` row keyed `p` is deleted. -/
def deleteBlocksFor (p : Path) (bs : List ((Path × Nat) × Bytes)) :
    List ((Path × Nat) × Bytes) :=
  bs.filter (fun b => !decide (b.1.1 = p))

/-- `SELECT ... FROM blocks WHERE path = ?`. -/
def blocksFor (p : Path) (bs : List ((Path × Nat) × Bytes)) :
    List ((Path × Nat) × Bytes) :=
  bs.filter (fun b => decide (b.1.1 = p))

/-- Insertion step of the `ORDER BY block_number` sort. -/
def insertByNum (b : (Path × Nat) × Bytes) :
    List ((Path × Nat) × Bytes) → List ((Path × Nat) × Bytes)
  | [] => [b]
  | c :: rest => if b.1.2 ≤ c.1.2 then b :: c :: rest else c :: insertByNum b rest

/-- `ORDER BY block_number` (src/blocks.ts line 73), as an insertion
sort on the block number. -/
def sortByNum (bs : List ((Path × Nat) × Bytes)) : List ((Path × Nat) × Bytes) :=
  bs.foldr insertByNum []

/-- `mkdir` with fuel (src/blocks.ts lines 158-174): recursively ensure
the parent exists (the JS guard `if (parentDir)` tests for the empty
string), then `INSERT OR IGNORE` the directory row itself. The fuel-0
branch is unreachable when called with fuel = number of path segments. -/
def mkdirAux (now : Nat) : Nat → Path → DOState → DOState
  | 0, p, st => { st with files := insertDirIfAbsent p now st.files }
  | fuel + 1, p, st =>
    let parent := parentOf p
    let st1 := if parent.isEmpty then st else mkdirAux now fuel parent st
    { st1 with files := insertDirIfAbsent p now st1.files }

/-- `mkdir(path)` (src/blocks.ts lines 158-174). -/
def mkdir (now : Nat) (p : Path) (st : DOState) : DOState :=
  mkdirAux now (splitSlash p).length p st

/-- `writeFile(path, content)` (src/blocks.ts lines 91-135): ensure the
parent directory chain, upsert the metadata row, delete all blocks for
the path, then insert the freshly split blocks (the whole mutation is
one transaction, so it is one state-to-state function here). -/
def writeFile (now : Nat) (p : Path) (content : Bytes) (st : DOState) : DOState :=
  let parent := parentOf p
  let st1 := if parent.isEmpty then st else mkdir now parent st
  { files := upsertFile p content.length now st1.files
    blocks := deleteBlocksFor p st1.blocks ++
      (splitIntoBlocks content).map (fun b => ((p, b.1), b.2)) }

/-- `assembleBlocks(path)` (src/blocks.ts lines 62-89): look up the
`files` row with `type = 'file'` (else `ENOENT`), fetch the blocks
ordered by block number, and copy each into a zero-filled buffer of
`size` bytes at offset `block_number * BLOCK_SIZE`. -/
def assembleBlocks (p : Path) (st : DOState) : Except FSError Bytes :=
  match findRow p st.files with
  | none => Except.error FSError.ENOENT
  | some e =>
    if e.type = FType.file then
      let bs := sortByNum (blocksFor p st.blocks)
      Except.ok (bs.foldl (fun buf b => writeAt buf (b.1.2 * BLOCK_SIZE) b.2)
        (List.replicate (e.size.getD 0) 0))
    else Except.error FSError.ENOENT

/-- `readFile(path)` (src/blocks.ts lines 137-143), raw-bytes branch
(the `utf8` decode of the other branch is outside the model). -/
def readFile (p : Path) (st : DOState) : Except FSError Bytes :=
  assembleBlocks p st

/-- `unlink(path)` (src/blocks.ts lines 145-155): delete the `files`
row with `path = ? AND type = 'file'`; cascade removes its blocks;
`rowsWritten === 0` throws `ENOENT`. -/
def unlink (p : Path) (st : DOState) : Except FSError DOState :=
  let remaining := st.files.filter (fun r => !decide (r.1 = p ∧ r.2.type = FType.file))
  if st.files.length - remaining.length = 0 then Except.error FSError.ENOENT
  else Except.ok { files := remaining, blocks := deleteBlocksFor p st.blocks }

/-- `rmdir(path)` (src/blocks.ts lines 176-194): first the emptiness
check `SELECT 1 FROM files WHERE path LIKE ? || '/%' LIMIT 1` (the raw
path is interpolated into the LIKE pattern), then delete the row with
`path = ? AND type = 'directory'`; `rowsWritten === 0` throws `ENOENT`. -/
def rmdir (p : Path) (st : DOState) : Except FSError DOState :=
  if st.files.any (fun r => likeMatch (p ++ ['/', '%']) r.1) then
    Except.error FSError.ENOTEMPTY
  else
    let remaining := st.files.filter (fun r => !decide (r.1 = p ∧ r.2.type = FType.directory))
    if st.files.length - remaining.length = 0 then Except.error FSError.ENOENT
    else Except.ok { files := remaining, blocks := deleteBlocksFor p st.blocks }

/-- `readdir(path)` (src/blocks.ts lines 196-221): require a directory
row at `path`, select entries matching `path LIKE ? || '/%'` but not
`? || '/%/%'`, and map each to its final path segment. -/
def readdir (p : Path) (st : DOState) : Except FSError (List Path) :=
  if st.files.any (fun r => decide (r.1 = p ∧ r.2.type = FType.directory)) then
    Except.ok ((st.files.filter (fun r =>
        likeMatch (p ++ ['/', '%']) r.1 &&
          !likeMatch (p ++ ['/', '%', '/', '%']) r.1)).map
      (fun r => lastSegment r.1))
  else Except.error FSError.ENOENT

/-- The object `stat` returns (src/blocks.ts lines 235-241), with the
two predicate methods forced to their boolean values and `Date`
wrappers dropped. -/
structure FileStat where
  isFile : Bool
  isDirectory : Bool
  size : Option Nat
  created : Nat
  modified : Nat
deriving DecidableEq

/-- `path.split("/")[0]` — the root segment used by the `VirtualFS`
router (src/blocks.ts lines 249-257); it must be non-empty there. -/
def rootSegment (p : Path) : Path := (splitSlash p).headD []

/-- The chain of proper ancestor paths of `p` that `mkdir`'s recursion
walks: parent, grandparent, …, stopping at the empty parent (fuel is
the number of path segments at the call sites below). -/
def ancestorChain : Nat → Path → List Path
  | 0, _ => []
  | fuel + 1, p =>
    let par := parentOf p
    if par.isEmpty then [] else par :: ancestorChain fuel par

/-- All proper ancestors of `p`, nearest first. -/
def ancestors (p : Path) : List Path := ancestorChain (splitSlash p).length p

/-- `ceil(n / BLOCK_SIZE)` — the number of blocks a file of `n` bytes
occupies. -/
def numBlocks (n : Nat) : Nat := (n + BLOCK_SIZE - 1) / BLOCK_SIZE

/-- `p` contains none of the SQL LIKE metacharacters `%` and `_`. -/
def noWild (p : Path) : Bool := p.all (fun c => decide (c ≠ '%' ∧ c ≠ '_'))

/-- `q` lies exactly one path segment below `p`, compared
ASCII-case-insensitively (as SQLite's LIKE compares): `q` is `p`, a
slash, then a (possibly empty) final segment containing no slash. -/
def isChildOf (p q : Path) : Bool :=
  decide ((low q).take ((low p).length + 1) = low p ++ ['/']) &&
    !decide ('/' ∈ (low q).drop ((low p).length + 1))

/-- `stat(path)` (src/blocks.ts lines 223-242). -/
def stat (p : Path) (st : DOState) : Except FSError FileStat :=
  match findRow p st.files with
  | none => Except.error FSError.ENOENT
  | some e =>
    Except.ok
      { isFile := decide (e.type = FType.file)
        isDirectory := decide (e.type = FType.directory)
        size := e.size
        created := e.created_at
        modified := e.updated_at }

end VFS

deriving instance DecidableEq for Except

namespace VFS

/-! ### Path splitting and joining lemmas -/

theorem splitSlash_ne_nil (p : Path) : splitSlash p ≠ [] := by
  cases p with
  | nil => simp [splitSlash]
  | cons c rest =>
    simp only [splitSlash]
    split
    · simp
    · cases h : splitSlash rest <;> simp

theorem mem_splitSlash_no_slash (p : Path) : ∀ s ∈ splitSlash p, '/' ∉ s := by
  induction p with
  | nil => intro s hs; simp [splitSlash] at hs; simp [hs]
  | cons c rest ih =>
    intro s hs
    simp only [splitSlash] at hs
    by_cases hc : c = '/'
    · rw [if_pos hc] at hs
      rcases List.mem_cons.mp hs with h | h
      · simp [h]
      · exact ih s h
    · rw [if_neg hc] at hs
      cases h : splitSlash rest with
      | nil => exact absurd h (splitSlash_ne_nil rest)
      | cons seg segs =>
        rw [h] at hs
        rcases List.mem_cons.mp hs with h1 | h1
        · subst h1
          intro hmem
          rcases List.mem_cons.mp hmem with h2 | h2
          · exact hc h2.symm
          · exact ih seg (h ▸ List.mem_cons_self seg segs) h2
        · exact ih s (h ▸ List.mem_cons_of_mem seg h1)

theorem joinSlash_cons_cons (c : Char) (seg : Path) (segs : List Path) :
    joinSlash ((c :: seg) :: segs) = c :: joinSlash (seg :: segs) := by
  cases segs <;> simp [joinSlash]

theorem joinSlash_splitSlash (p : Path) : joinSlash (splitSlash p) = p := by
  induction p with
  | nil => simp [splitSlash, joinSlash]
  | cons c rest ih =>
    simp only [splitSlash]
    by_cases hc : c = '/'
    · rw [if_pos hc]
      cases h : splitSlash rest with
      | nil => exact absurd h (splitSlash_ne_nil rest)
      | cons seg segs =>
        rw [h] at ih
        simp [joinSlash, hc, ih]
    · rw [if_neg hc]
      cases h : splitSlash rest with
      | nil => exact absurd h (splitSlash_ne_nil rest)
      | cons seg segs =>
        rw [h] at ih
        rw [joinSlash_cons_cons, ih]

theorem splitSlash_injective {p q : Path} (h : splitSlash p = splitSlash q) : p = q := by
  have hp := joinSlash_splitSlash p
  have hq := joinSlash_splitSlash q
  rw [← hp, ← hq, h]

theorem splitSlash_no_slash (s : Path) (h : '/' ∉ s) : splitSlash s = [s] := by
  induction s with
  | nil => simp [splitSlash]
  | cons c rest ih =>
    have hc : c ≠ '/' := fun hcc => h (hcc ▸ List.mem_cons_self c rest)
    have hrest : '/' ∉ rest := fun hr => h (List.mem_cons_of_mem c hr)
    simp only [splitSlash]
    rw [if_neg hc, ih hrest]

theorem splitSlash_append_slash (x t : Path) (h : '/' ∉ x) :
    splitSlash (x ++ '/' :: t) = x :: splitSlash t := by
  induction x with
  | nil => simp [splitSlash]
  | cons c x' ih =>
    have hc : c ≠ '/' := fun hcc => h (hcc ▸ List.mem_cons_self c x')
    have hx' : '/' ∉ x' := fun hr => h (List.mem_cons_of_mem c hr)
    simp only [List.cons_append, splitSlash]
    rw [if_neg hc, List.append_eq, ih hx']

theorem splitSlash_joinSlash (parts : List Path) (hne : parts ≠ [])
    (hfree : ∀ s ∈ parts, '/' ∉ s) : splitSlash (joinSlash parts) = parts := by
  induction parts with
  | nil => exact absurd rfl hne
  | cons x rest ih =>
    cases rest with
    | nil => simpa [joinSlash] using splitSlash_no_slash x (hfree x (by simp))
    | cons y ys =>
      have hx : '/' ∉ x := hfree x (by simp)
      simp only [joinSlash]
      rw [splitSlash_append_slash x _ hx]
      congr 1
      exact ih (by simp) (fun s hs => hfree s (List.mem_cons_of_mem x hs))

theorem mem_dropLast {α : Type} {a : α} : ∀ {l : List α}, a ∈ l.dropLast → a ∈ l
  | [], h => h
  | [_], h => by simp at h
  | x :: y :: ys, h => by
    rw [List.dropLast_cons₂] at h
    rcases List.mem_cons.mp h with h1 | h1
    · exact h1 ▸ List.mem_cons_self x (y :: ys)
    · exact List.mem_cons_of_mem x (mem_dropLast h1)

theorem splitSlash_parentOf {p : Path} (h : parentOf p ≠ []) :
    splitSlash (parentOf p) = (splitSlash p).dropLast := by
  have hne : (splitSlash p).dropLast ≠ [] := by
    intro hd
    exact h (by simp [parentOf, hd, joinSlash])
  exact splitSlash_joinSlash _ hne
    (fun s hs => mem_splitSlash_no_slash p s (mem_dropLast hs))

theorem length_splitSlash_parentOf {p : Path} (h : parentOf p ≠ []) :
    (splitSlash (parentOf p)).length < (splitSlash p).length := by
  rw [splitSlash_parentOf h, List.length_dropLast]
  have := splitSlash_ne_nil p
  have hpos : 0 < (splitSlash p).length := List.length_pos.mpr this
  omega

/-! ### Row lookup lemmas -/

theorem findRow_mem {p : Path} {e : Entry} :
    ∀ {fs : List (Path × Entry)}, findRow p fs = some e → (p, e) ∈ fs
  | [], h => by simp [findRow] at h
  | (q, e') :: rest, h => by
    by_cases hq : q = p
    · rw [findRow, if_pos hq] at h
      subst hq
      obtain rfl : e' = e := Option.some.inj h
      exact List.mem_cons_self _ _
    · rw [findRow, if_neg hq] at h
      exact List.mem_cons_of_mem _ (findRow_mem h)

theorem findRow_eq_none {p : Path} :
    ∀ {fs : List (Path × Entry)}, (∀ e, (p, e) ∉ fs) → findRow p fs = none
  | [], _ => rfl
  | (q, e') :: rest, h => by
    have hq : q ≠ p := by
      intro hq
      exact h e' (by rw [hq]; exact List.mem_cons_self _ _)
    rw [findRow, if_neg hq]
    exact findRow_eq_none (fun e he => h e (List.mem_cons_of_mem _ he))

theorem findRow_append_of_some {p : Path} {e : Entry} {fs : List (Path × Entry)}
    (gs : List (Path × Entry)) (h : findRow p fs = some e) :
    findRow p (fs ++ gs) = some e := by
  induction fs with
  | nil => simp [findRow] at h
  | cons r rest ih =>
    obtain ⟨q, e'⟩ := r
    by_cases hq : q = p
    · rw [findRow, if_pos hq] at h
      simpa [findRow, if_pos hq] using h
    · rw [findRow, if_neg hq] at h
      rw [List.cons_append, findRow, if_neg hq]
      exact ih h

theorem findRow_append_of_none {p : Path} {fs : List (Path × Entry)}
    (gs : List (Path × Entry)) (h : findRow p fs = none) :
    findRow p (fs ++ gs) = findRow p gs := by
  induction fs with
  | nil => rfl
  | cons r rest ih =>
    obtain ⟨q, e'⟩ := r
    by_cases hq : q = p
    · rw [findRow, if_pos hq] at h
      simp at h
    · rw [findRow, if_neg hq] at h
      rw [List.cons_append, findRow, if_neg hq]
      exact ih h

/-! ### `INSERT OR IGNORE` (insertDirIfAbsent) lemmas -/

theorem insertDirIfAbsent_of_present {p : Path} {now : Nat} {fs : List (Path × Entry)}
    (h : (findRow p fs).isSome) : insertDirIfAbsent p now fs = fs := by
  rw [insertDirIfAbsent, if_pos h]

theorem findRow_insertDirIfAbsent_other {x p : Path} {now : Nat} {fs : List (Path × Entry)}
    (hx : x ≠ p) : findRow x (insertDirIfAbsent p now fs) = findRow x fs := by
  rw [insertDirIfAbsent]
  split
  · rfl
  · cases h : findRow x fs with
    | some e => exact findRow_append_of_some _ h
    | none =>
      rw [findRow_append_of_none _ h]
      simp [findRow, Ne.symm hx]

theorem findRow_insertDirIfAbsent_self_of_none {p : Path} {now : Nat}
    {fs : List (Path × Entry)} (h : findRow p fs = none) :
    findRow p (insertDirIfAbsent p now fs) = some ⟨FType.directory, none, now, now⟩ := by
  rw [insertDirIfAbsent, if_neg (by simp [h]), findRow_append_of_none _ h]
  simp [findRow]

theorem findRow_insertDirIfAbsent_isSome {p : Path} {now : Nat} (fs : List (Path × Entry)) :
    (findRow p (insertDirIfAbsent p now fs)).isSome := by
  cases h : findRow p fs with
  | some e =>
    rw [insertDirIfAbsent_of_present (by simp [h]), h]
    rfl
  | none => rw [findRow_insertDirIfAbsent_self_of_none h]; rfl

theorem findRow_insertDirIfAbsent_of_some {x p : Path} {now : Nat} {e : Entry}
    {fs : List (Path × Entry)} (h : findRow x fs = some e) :
    findRow x (insertDirIfAbsent p now fs) = some e := by
  by_cases hx : x = p
  · subst hx
    rw [insertDirIfAbsent_of_present (by simp [h]), h]
  · rw [findRow_insertDirIfAbsent_other hx, h]

/-! ### `upsertFile` lemmas -/

theorem findRow_upsertFile_of_none {p : Path} {len now : Nat} :
    ∀ {fs : List (Path × Entry)}, findRow p fs = none →
      findRow p (upsertFile p len now fs) = some ⟨FType.file, some len, now, now⟩
  | [], _ => by simp [upsertFile, findRow]
  | (q, e') :: rest, h => by
    by_cases hq : q = p
    · rw [findRow, if_pos hq] at h
      simp at h
    · rw [findRow, if_neg hq] at h
      rw [upsertFile, if_neg hq, findRow, if_neg hq]
      exact findRow_upsertFile_of_none h

theorem findRow_upsertFile_of_some {p : Path} {len now : Nat} {e : Entry} :
    ∀ {fs : List (Path × Entry)}, findRow p fs = some e →
      findRow p (upsertFile p len now fs) =
        some { e with size := some len, updated_at := now }
  | [], h => by simp [findRow] at h
  | (q, e') :: rest, h => by
    by_cases hq : q = p
    · rw [findRow, if_pos hq] at h
      obtain rfl : e' = e := Option.some.inj h
      rw [upsertFile, if_pos hq, findRow, if_pos hq]
    · rw [findRow, if_neg hq] at h
      rw [upsertFile, if_neg hq, findRow, if_neg hq]
      exact findRow_upsertFile_of_some h

theorem findRow_upsertFile_other {x p : Path} {len now : Nat} (hx : x ≠ p) :
    ∀ {fs : List (Path × Entry)}, findRow x (upsertFile p len now fs) = findRow x fs
  | [] => by
    simp [upsertFile, findRow, Ne.symm hx]
  | (q, e') :: rest => by
    by_cases hq : q = p
    · subst hq
      rw [upsertFile, if_pos rfl, findRow, findRow,
        if_neg (Ne.symm hx), if_neg (Ne.symm hx)]
    · rw [upsertFile, if_neg hq, findRow, findRow]
      split
      · rfl
      · exact findRow_upsertFile_other hx

/-! ### `mkdir` lemmas -/

theorem mkdirAux_blocks (now : Nat) :
    ∀ (fuel : Nat) (p : Path) (st : DOState), (mkdirAux now fuel p st).blocks = st.blocks
  | 0, p, st => rfl
  | fuel + 1, p, st => by
    rw [mkdirAux]
    split
    · rfl
    · exact mkdirAux_blocks now fuel (parentOf p) st

theorem findRow_mkdirAux_of_some {now : Nat} {x : Path} {e : Entry}
    (h : findRow x st.files = some e) :
    ∀ (fuel : Nat) (p : Path), findRow x (mkdirAux now fuel p st).files = some e := by
  intro fuel
  induction fuel generalizing st with
  | zero =>
    intro p
    exact findRow_insertDirIfAbsent_of_some h
  | succ fuel ih =>
    intro p
    rw [mkdirAux]
    split
    · exact findRow_insertDirIfAbsent_of_some h
    · exact findRow_insertDirIfAbsent_of_some (ih h (parentOf p))

theorem findRow_mkdirAux_self_isSome (now : Nat) (fuel : Nat) (p : Path) (st : DOState) :
    (findRow p (mkdirAux now fuel p st).files).isSome := by
  cases fuel with
  | zero => exact findRow_insertDirIfAbsent_isSome _
  | succ fuel =>
    rw [mkdirAux]
    split
    · exact findRow_insertDirIfAbsent_isSome _
    · exact findRow_insertDirIfAbsent_isSome _

theorem findRow_mkdirAux_longer {now : Nat} {x : Path} :
    ∀ (fuel : Nat) (p : Path) (st : DOState),
      (splitSlash p).length < (splitSlash x).length →
      findRow x (mkdirAux now fuel p st).files = findRow x st.files
  | 0, p, st, hlen => by
    have hx : x ≠ p := fun hxe => by rw [hxe] at hlen; omega
    exact findRow_insertDirIfAbsent_other hx
  | fuel + 1, p, st, hlen => by
    have hx : x ≠ p := fun hxe => by rw [hxe] at hlen; omega
    rw [mkdirAux]
    split
    · exact findRow_insertDirIfAbsent_other hx
    · next hpar =>
      have hpar' : parentOf p ≠ [] := by
        intro hp
        rw [hp] at hpar
        simp [List.isEmpty] at hpar
      have hlt := length_splitSlash_parentOf hpar'
      rw [findRow_insertDirIfAbsent_other hx,
        findRow_mkdirAux_longer fuel (parentOf p) st (by omega)]

theorem findRow_mkdirAux_self_of_none {now : Nat} :
    ∀ (fuel : Nat) (p : Path) (st : DOState), findRow p st.files = none →
      findRow p (mkdirAux now fuel p st).files = some ⟨FType.directory, none, now, now⟩
  | 0, p, st, h => findRow_insertDirIfAbsent_self_of_none h
  | fuel + 1, p, st, h => by
    rw [mkdirAux]
    split
    · exact findRow_insertDirIfAbsent_self_of_none h
    · next hpar =>
      have hpar' : parentOf p ≠ [] := by
        intro hp
        rw [hp] at hpar
        simp [List.isEmpty] at hpar
      have hlt := length_splitSlash_parentOf hpar'
      have hnone : findRow p (mkdirAux now fuel (parentOf p) st).files = none := by
        rw [findRow_mkdirAux_longer fuel (parentOf p) st hlt]
        exact h
      exact findRow_insertDirIfAbsent_self_of_none hnone

theorem isEmpty_eq_nil {α : Type} (l : List α) : l.isEmpty = true ↔ l = [] := by
  cases l <;> simp [List.isEmpty]

theorem findRow_insertDirIfAbsent_isSome_of_isSome {x p : Path} {now : Nat}
    {fs : List (Path × Entry)} (h : (findRow x fs).isSome) :
    (findRow x (insertDirIfAbsent p now fs)).isSome := by
  obtain ⟨e, he⟩ := Option.isSome_iff_exists.mp h
  rw [findRow_insertDirIfAbsent_of_some he]
  rfl

theorem mem_ancestorChain_length {q : Path} :
    ∀ {fuel : Nat} {p : Path}, q ∈ ancestorChain fuel p →
      (splitSlash q).length < (splitSlash p).length := by
  intro fuel
  induction fuel with
  | zero => intro p h; simp [ancestorChain] at h
  | succ fuel ih =>
    intro p h
    rw [ancestorChain] at h
    by_cases hpar : (parentOf p).isEmpty
    · rw [if_pos hpar] at h
      simp at h
    · rw [if_neg hpar] at h
      have hpar' : parentOf p ≠ [] := fun hp => hpar ((isEmpty_eq_nil _).mpr hp)
      have hlt := length_splitSlash_parentOf hpar'
      rcases List.mem_cons.mp h with h1 | h1
      · rw [h1]; exact hlt
      · have := ih h1
        omega

theorem mkdirAux_ensures_ancestors {now : Nat} {q : Path} :
    ∀ (fuel : Nat) (p : Path) (st : DOState), q ∈ ancestorChain fuel p →
      (findRow q (mkdirAux now fuel p st).files).isSome ∧
        (findRow q st.files = none →
          findRow q (mkdirAux now fuel p st).files =
            some ⟨FType.directory, none, now, now⟩) := by
  intro fuel
  induction fuel with
  | zero => intro p st h; simp [ancestorChain] at h
  | succ fuel ih =>
    intro p st h
    rw [ancestorChain] at h
    by_cases hpar : (parentOf p).isEmpty
    · rw [if_pos hpar] at h
      simp at h
    · rw [if_neg hpar] at h
      rw [mkdirAux, if_neg hpar]
      rcases List.mem_cons.mp h with h1 | h1
      · subst h1
        constructor
        · exact findRow_insertDirIfAbsent_isSome_of_isSome
            (findRow_mkdirAux_self_isSome now fuel (parentOf p) st)
        · intro hnone
          exact findRow_insertDirIfAbsent_of_some
            (findRow_mkdirAux_self_of_none fuel (parentOf p) st hnone)
      · obtain ⟨h2, h3⟩ := ih (parentOf p) st h1
        constructor
        · exact findRow_insertDirIfAbsent_isSome_of_isSome h2
        · intro hnone
          exact findRow_insertDirIfAbsent_of_some (h3 hnone)

theorem mkdirAux_noop_of_present {now : Nat} :
    ∀ (fuel : Nat) (p : Path) (st : DOState),
      (∀ q ∈ p :: ancestorChain fuel p, (findRow q st.files).isSome) →
      mkdirAux now fuel p st = st
  | 0, p, st, h => by
    rw [mkdirAux, insertDirIfAbsent_of_present (h p (by simp))]
  | fuel + 1, p, st, h => by
    rw [mkdirAux]
    by_cases hpar : (parentOf p).isEmpty
    · rw [if_pos hpar, insertDirIfAbsent_of_present (h p (by simp))]
    · rw [if_neg hpar]
      have hrec : mkdirAux now fuel (parentOf p) st = st := by
        apply mkdirAux_noop_of_present fuel (parentOf p) st
        intro q hq
        apply h
        rw [ancestorChain, if_neg hpar]
        rcases List.mem_cons.mp hq with h1 | h1
        · rw [h1]; simp
        · simp [h1]
      rw [hrec, insertDirIfAbsent_of_present (h p (by simp))]

theorem mkdirAux_all_present (now : Nat) (fuel : Nat) (p : Path) (st : DOState) :
    ∀ q ∈ p :: ancestorChain fuel p, (findRow q (mkdirAux now fuel p st).files).isSome := by
  intro q hq
  rcases List.mem_cons.mp hq with h1 | h1
  · rw [h1]; exact findRow_mkdirAux_self_isSome now fuel p st
  · exact (mkdirAux_ensures_ancestors fuel p st h1).1

/-! ### Block splitting lemmas -/

theorem splitGo_nil (fuel i : Nat) : splitGo fuel [] i = [] := by
  cases fuel <;> simp [splitGo]

theorem numBlocks_zero : numBlocks 0 = 0 := by
  simp [numBlocks, BLOCK_SIZE]

theorem numBlocks_succ {n : Nat} (h : 1 ≤ n) :
    numBlocks n = numBlocks (n - BLOCK_SIZE) + 1 := by
  simp only [numBlocks, BLOCK_SIZE]
  omega

theorem splitGo_eq_range :
    ∀ (fuel : Nat) (data : Bytes) (i : Nat), data.length ≤ fuel →
      splitGo fuel data i = (List.range (numBlocks data.length)).map
        (fun j => (i + j, (data.drop (j * BLOCK_SIZE)).take BLOCK_SIZE)) := by
  intro fuel
  induction fuel with
  | zero =>
    intro data i h
    obtain rfl : data = [] := List.length_eq_zero.mp (Nat.le_zero.mp h)
    simp [splitGo, numBlocks_zero]
  | succ fuel ih =>
    intro data i h
    cases data with
    | nil => simp [splitGo, numBlocks_zero]
    | cons d ds =>
      have hlen : 1 ≤ (d :: ds).length := by simp
      rw [splitGo, if_neg (by simp)]
      have hdroplen : ((d :: ds).drop BLOCK_SIZE).length ≤ fuel := by
        rw [List.length_drop]
        simp only [BLOCK_SIZE] at *
        simp only [List.length_cons] at *
        omega
      rw [ih _ (i + 1) hdroplen, List.length_drop, numBlocks_succ hlen,
        List.range_succ_eq_map, List.map_cons, List.map_map]
      congr 1
      apply List.map_congr_left
      intro j hj
      have h1 : i + 1 + j = i + (j + 1) := by omega
      have h2 : List.drop (j * BLOCK_SIZE) ((d :: ds).drop BLOCK_SIZE) =
          List.drop ((j + 1) * BLOCK_SIZE) (d :: ds) := by
        rw [List.drop_drop]
        congr 1
        ring
      simp only [Function.comp_apply, Nat.succ_eq_add_one, h1, h2]

theorem splitGo_fst_le :
    ∀ (fuel : Nat) (data : Bytes) (i : Nat), ∀ b ∈ splitGo fuel data i, i ≤ b.1
  | 0, _, _ => by simp [splitGo]
  | fuel + 1, data, i => by
    intro b hb
    rw [splitGo] at hb
    split at hb
    · simp at hb
    · rcases List.mem_cons.mp hb with h1 | h1
      · rw [h1]
      · have := splitGo_fst_le fuel _ (i + 1) b h1
        omega

theorem splitGo_pairwise :
    ∀ (fuel : Nat) (data : Bytes) (i : Nat),
      (splitGo fuel data i).Pairwise (fun a b => a.1 < b.1)
  | 0, _, _ => by simp [splitGo]
  | fuel + 1, data, i => by
    rw [splitGo]
    split
    · simp
    · refine List.Pairwise.cons ?_ (splitGo_pairwise fuel _ (i + 1))
      intro b hb
      have := splitGo_fst_le fuel _ (i + 1) b hb
      simpa using by omega

/-! ### Sorting lemmas: the ORDER BY is the identity on freshly written blocks -/

theorem insertByNum_of_le {b : (Path × Nat) × Bytes} :
    ∀ {l : List ((Path × Nat) × Bytes)}, (∀ c ∈ l, b.1.2 ≤ c.1.2) →
      insertByNum b l = b :: l
  | [], _ => rfl
  | c :: rest, h => by
    rw [insertByNum, if_pos (h c (by simp))]

theorem sortByNum_of_pairwise :
    ∀ {l : List ((Path × Nat) × Bytes)},
      l.Pairwise (fun a b => a.1.2 < b.1.2) → sortByNum l = l
  | [], _ => rfl
  | a :: rest, h => by
    have h1 := List.pairwise_cons.mp h
    show insertByNum a (sortByNum rest) = a :: rest
    rw [sortByNum_of_pairwise h1.2]
    exact insertByNum_of_le (fun c hc => Nat.le_of_lt (h1.1 c hc))

/-! ### Buffer assembly: folding writeAt over sequential blocks concatenates them -/

theorem writeAt_length {buf data : Bytes} {off : Nat} (h : off + data.length ≤ buf.length) :
    (writeAt buf off data).length = buf.length := by
  simp only [writeAt, List.length_append, List.length_take, List.length_drop]
  omega

theorem foldl_writeAt_splitGo :
    ∀ (fuel : Nat) (data : Bytes) (k : Nat) (buf : Bytes),
      data.length ≤ fuel → buf.length = k * BLOCK_SIZE + data.length →
      (splitGo fuel data k).foldl (fun b blk => writeAt b (blk.1 * BLOCK_SIZE) blk.2) buf =
        buf.take (k * BLOCK_SIZE) ++ data := by
  intro fuel
  induction fuel with
  | zero =>
    intro data k buf hfuel hbuf
    obtain rfl : data = [] := List.length_eq_zero.mp (Nat.le_zero.mp hfuel)
    simp only [List.length_nil, Nat.add_zero] at hbuf
    simp only [splitGo, List.foldl_nil, List.append_nil]
    exact (List.take_of_length_le (Nat.le_of_eq hbuf)).symm
  | succ fuel ih =>
    intro data k buf hfuel hbuf
    cases data with
    | nil =>
      simp only [List.length_nil, Nat.add_zero] at hbuf
      simp only [splitGo_nil, List.foldl_nil, List.append_nil]
      exact (List.take_of_length_le (Nat.le_of_eq hbuf)).symm
    | cons d ds =>
      have hdlen : 1 ≤ (d :: ds).length := by simp
      have hB : 1 ≤ BLOCK_SIZE := by simp [BLOCK_SIZE]
      have hkB : k * BLOCK_SIZE ≤ buf.length := by
        rw [hbuf]; exact Nat.le_add_right _ _
      rw [splitGo, if_neg (by simp), List.foldl_cons]
      by_cases hle : (d :: ds).length ≤ BLOCK_SIZE
      · have hdrop : (d :: ds).drop BLOCK_SIZE = [] := List.drop_eq_nil_of_le hle
        rw [hdrop, splitGo_nil, List.foldl_nil]
        have htake : (d :: ds).take BLOCK_SIZE = d :: ds := List.take_of_length_le hle
        simp only [writeAt, htake]
        have hdropbuf : buf.drop (k * BLOCK_SIZE + (d :: ds).length) = [] :=
          List.drop_eq_nil_of_le (Nat.le_of_eq hbuf)
        rw [hdropbuf, List.append_nil]
      · have hgt : BLOCK_SIZE < (d :: ds).length := by omega
        have htakelen : ((d :: ds).take BLOCK_SIZE).length = BLOCK_SIZE := by
          rw [List.length_take]
          omega
        have hsum : (k + 1) * BLOCK_SIZE = k * BLOCK_SIZE + BLOCK_SIZE := by ring
        have hwlen : k * BLOCK_SIZE + ((d :: ds).take BLOCK_SIZE).length ≤ buf.length := by
          rw [htakelen, hbuf]
          omega
        have hbuf1len : (writeAt buf (k * BLOCK_SIZE) ((d :: ds).take BLOCK_SIZE)).length =
            (k + 1) * BLOCK_SIZE + ((d :: ds).drop BLOCK_SIZE).length := by
          rw [writeAt_length hwlen, List.length_drop, hsum, hbuf]
          omega
        have hfuel2 : ((d :: ds).drop BLOCK_SIZE).length ≤ fuel := by
          rw [List.length_drop]
          omega
        rw [ih ((d :: ds).drop BLOCK_SIZE) (k + 1) _ hfuel2 hbuf1len]
        have hsplit : writeAt buf (k * BLOCK_SIZE) ((d :: ds).take BLOCK_SIZE) =
            (buf.take (k * BLOCK_SIZE) ++ (d :: ds).take BLOCK_SIZE) ++
              buf.drop (k * BLOCK_SIZE + ((d :: ds).take BLOCK_SIZE).length) := by
          simp [writeAt, List.append_assoc]
        have hprelen : (buf.take (k * BLOCK_SIZE) ++ (d :: ds).take BLOCK_SIZE).length =
            (k + 1) * BLOCK_SIZE := by
          rw [List.length_append, List.length_take, htakelen, hsum]
          omega
        have hpre : (writeAt buf (k * BLOCK_SIZE) ((d :: ds).take BLOCK_SIZE)).take
            ((k + 1) * BLOCK_SIZE) = buf.take (k * BLOCK_SIZE) ++ (d :: ds).take BLOCK_SIZE := by
          rw [hsplit, ← hprelen, List.take_left]
        rw [hpre, List.append_assoc, List.take_append_drop]

/-! ### The block rows a writeFile leaves behind -/

theorem blocksFor_deleteBlocksFor (p : Path) :
    ∀ (bs : List ((Path × Nat) × Bytes)), blocksFor p (deleteBlocksFor p bs) = []
  | [] => rfl
  | b :: rest => by
    by_cases hb : b.1.1 = p
    · simp only [deleteBlocksFor, blocksFor, List.filter_cons]
      rw [if_neg (by simp [hb])]
      exact blocksFor_deleteBlocksFor p rest
    · simp only [deleteBlocksFor, blocksFor, List.filter_cons]
      rw [if_pos (by simp [hb]), List.filter_cons, if_neg (by simp [hb])]
      exact blocksFor_deleteBlocksFor p rest

theorem blocksFor_map_own (p : Path) (l : List (Nat × Bytes)) :
    blocksFor p (l.map (fun b => ((p, b.1), b.2))) = l.map (fun b => ((p, b.1), b.2)) := by
  rw [blocksFor, List.filter_eq_self]
  intro b hb
  obtain ⟨a, _, rfl⟩ := List.mem_map.mp hb
  simp

theorem writeFile_blocksFor (now : Nat) (p : Path) (C : Bytes) (st : DOState) :
    blocksFor p (writeFile now p C st).blocks =
      (splitIntoBlocks C).map (fun b => ((p, b.1), b.2)) := by
  show blocksFor p (deleteBlocksFor p _ ++ (splitIntoBlocks C).map _) = _
  rw [blocksFor, List.filter_append, ← blocksFor, ← blocksFor,
    blocksFor_deleteBlocksFor, blocksFor_map_own, List.nil_append]

/-! ### The catalog row a writeFile leaves behind -/

theorem writeFile_findRow_fresh {p : Path} {st : DOState} (now : Nat) (C : Bytes)
    (h : findRow p st.files = none) :
    findRow p (writeFile now p C st).files = some ⟨FType.file, some C.length, now, now⟩ := by
  show findRow p (upsertFile p C.length now
    (if (parentOf p).isEmpty then st else mkdir now (parentOf p) st).files) = _
  by_cases hpar : (parentOf p).isEmpty
  · rw [if_pos hpar]
    exact findRow_upsertFile_of_none h
  · rw [if_neg hpar]
    have hpar' : parentOf p ≠ [] := fun hp => hpar ((isEmpty_eq_nil _).mpr hp)
    have hlt := length_splitSlash_parentOf hpar'
    have hnone : findRow p (mkdir now (parentOf p) st).files = none := by
      rw [mkdir, findRow_mkdirAux_longer _ (parentOf p) st hlt]
      exact h
    exact findRow_upsertFile_of_none hnone

theorem writeFile_findRow_existing {p : Path} {st : DOState} {e : Entry} (now : Nat) (C : Bytes)
    (h : findRow p st.files = some e) :
    findRow p (writeFile now p C st).files =
      some { e with size := some C.length, updated_at := now } := by
  show findRow p (upsertFile p C.length now
    (if (parentOf p).isEmpty then st else mkdir now (parentOf p) st).files) = _
  by_cases hpar : (parentOf p).isEmpty
  · rw [if_pos hpar]
    exact findRow_upsertFile_of_some h
  · rw [if_neg hpar]
    have hsome : findRow p (mkdir now (parentOf p) st).files = some e :=
      findRow_mkdirAux_of_some h _ (parentOf p)
    exact findRow_upsertFile_of_some hsome

/-! ### Assembling exactly the blocks of one writeFile reproduces the content -/

theorem assemble_splitIntoBlocks (p : Path) (C : Bytes) :
    ((splitIntoBlocks C).map (fun b => ((p, b.1), b.2))).foldl
        (fun buf b => writeAt buf (b.1.2 * BLOCK_SIZE) b.2)
        (List.replicate C.length 0) = C := by
  rw [List.foldl_map]
  have h := foldl_writeAt_splitGo C.length C 0 (List.replicate C.length 0)
    le_rfl (by simp)
  simp only [Nat.zero_mul, List.take_zero, List.nil_append] at h
  exact h

theorem sortByNum_splitIntoBlocks (p : Path) (C : Bytes) :
    sortByNum ((splitIntoBlocks C).map (fun b => ((p, b.1), b.2))) =
      (splitIntoBlocks C).map (fun b => ((p, b.1), b.2)) := by
  apply sortByNum_of_pairwise
  rw [List.pairwise_map]
  exact splitGo_pairwise C.length C 0

/-- C1: for every path `p` with a non-empty root segment and every byte
content `C` (any length, including 0, BLOCK_SIZE, BLOCK_SIZE + 1 and
beyond), `readFile p` performed after `writeFile p C` on a path with no
pre-existing entry returns exactly the bytes `C`. -/
theorem writeFile_readFile_roundtrip (st : DOState) (now : Nat) (p : Path) (C : Bytes)
    (hroot : rootSegment p ≠ []) (hfresh : findRow p st.files = none) :
    readFile p (writeFile now p C st) = Except.ok C := by
  have hrow := writeFile_findRow_fresh now C hfresh
  simp only [readFile, assembleBlocks, hrow]
  rw [writeFile_blocksFor, sortByNum_splitIntoBlocks]
  simp only [Option.getD_some, if_pos rfl]
  rw [assemble_splitIntoBlocks]
  simp

/-- Witness for C1: a fresh two-segment path and a three-byte content. -/
theorem writeFile_readFile_roundtrip_witness :
    rootSegment ['a', '/', 'b'] ≠ [] ∧
      findRow ['a', '/', 'b'] emptyState.files = none ∧
      readFile ['a', '/', 'b'] (writeFile 5 ['a', '/', 'b'] [1, 2, 3] emptyState) =
        Except.ok [1, 2, 3] :=
  ⟨by decide, rfl,
    writeFile_readFile_roundtrip emptyState 5 ['a', '/', 'b'] [1, 2, 3] (by decide) rfl⟩

/-- C4: after `writeFile p C1` then `writeFile p C2`, the block rows
stored for `p` are exactly those implied by `C2`: block numbers
`0 … ceil(len C2 / BLOCK_SIZE) - 1`, each holding the corresponding
chunk of `C2` (zero rows when `C2` is empty), with nothing left over
from `C1`. -/
theorem writeFile_replace_blocks (st : DOState) (n1 n2 : Nat) (p : Path) (C1 C2 : Bytes) :
    blocksFor p (writeFile n2 p C2 (writeFile n1 p C1 st)).blocks =
      (List.range (numBlocks C2.length)).map
        (fun i => ((p, i), (C2.drop (i * BLOCK_SIZE)).take BLOCK_SIZE)) := by
  rw [writeFile_blocksFor]
  show (splitGo C2.length C2 0).map _ = _
  rw [splitGo_eq_range C2.length C2 0 le_rfl, List.map_map]
  apply List.map_congr_left
  intro j hj
  simp

/-- C8: `mkdir` is idempotent — running it a second time on the same
path (at any later clock value) leaves the whole state, including all
timestamps, exactly as after the first run, and raises no error (the
model's `mkdir` is total, as the source's `INSERT OR IGNORE` never
throws). -/
theorem mkdir_idempotent (st : DOState) (p : Path) (n1 n2 : Nat) :
    mkdir n2 p (mkdir n1 p st) = mkdir n1 p st := by
  simp only [mkdir]
  exact mkdirAux_noop_of_present _ _ _ (mkdirAux_all_present n1 _ p st)

/-- C9: `writeFile` on a path whose entry already exists as a File
keeps `created_at`, refreshes `updated_at` to the current time and sets
`size` to the content length; on a path with no entry, `created_at` is
set to the current time (first insert). -/
theorem writeFile_preserves_created_at (st : DOState) (now : Nat) (p : Path) (C : Bytes)
    (e : Entry) (hrow : findRow p st.files = some e) (hfile : e.type = FType.file) :
    findRow p (writeFile now p C st).files =
        some ⟨FType.file, some C.length, e.created_at, now⟩ ∧
      ∀ st2 : DOState, findRow p st2.files = none →
        findRow p (writeFile now p C st2).files =
          some ⟨FType.file, some C.length, now, now⟩ := by
  constructor
  · rw [writeFile_findRow_existing now C hrow, hfile]
  · intro st2 h2
    exact writeFile_findRow_fresh now C h2

/-- Witness for C9: rewriting a three-byte file with one byte at time 9
keeps `created_at = 0`; a first write at time 9 sets `created_at = 9`. -/
theorem writeFile_preserves_created_at_witness :
    findRow ['f'] (writeFile 9 ['f'] [7] (writeFile 0 ['f'] [1, 2, 3] emptyState)).files =
        some ⟨FType.file, some 1, 0, 9⟩ ∧
      findRow ['f'] (writeFile 9 ['f'] [7] emptyState).files =
        some ⟨FType.file, some 1, 9, 9⟩ :=
  ⟨(writeFile_preserves_created_at (writeFile 0 ['f'] [1, 2, 3] emptyState) 9 ['f'] [7]
      ⟨FType.file, some 3, 0, 0⟩ rfl rfl).1,
    (writeFile_preserves_created_at (writeFile 0 ['f'] [1, 2, 3] emptyState) 9 ['f'] [7]
      ⟨FType.file, some 3, 0, 0⟩ rfl rfl).2 emptyState rfl⟩

/-- C10: `mkdir` on a path that already holds a File entry raises no
error (the model's `mkdir` is total), leaves that row entirely
unchanged — type, size and both timestamps — does not touch the block
store, and still ensures every missing ancestor as a Directory entry. -/
theorem mkdir_on_file_path (st : DOState) (now : Nat) (p : Path) (e : Entry)
    (hrow : findRow p st.files = some e) (hfile : e.type = FType.file) :
    findRow p (mkdir now p st).files = some e ∧
      (mkdir now p st).blocks = st.blocks ∧
      ∀ q ∈ ancestors p, (findRow q (mkdir now p st).files).isSome ∧
        (findRow q st.files = none →
          findRow q (mkdir now p st).files = some ⟨FType.directory, none, now, now⟩) := by
  refine ⟨findRow_mkdirAux_of_some hrow _ p, mkdirAux_blocks now _ p st, ?_⟩
  intro q hq
  exact mkdirAux_ensures_ancestors _ p st hq

/-- Witness for C10: `mkdir "a/b"` over the file `"a/b"` leaves the file
row untouched and keeps the directory `"a"` present. -/
theorem mkdir_on_file_path_witness :
    findRow ['a', '/', 'b']
        (mkdir 3 ['a', '/', 'b'] (writeFile 0 ['a', '/', 'b'] [5] emptyState)).files =
        some ⟨FType.file, some 1, 0, 0⟩ ∧
      (findRow ['a']
        (mkdir 3 ['a', '/', 'b'] (writeFile 0 ['a', '/', 'b'] [5] emptyState)).files).isSome =
        true :=
  ⟨(mkdir_on_file_path (writeFile 0 ['a', '/', 'b'] [5] emptyState) 3 ['a', '/', 'b']
      ⟨FType.file, some 1, 0, 0⟩ rfl rfl).1,
    ((mkdir_on_file_path (writeFile 0 ['a', '/', 'b'] [5] emptyState) 3 ['a', '/', 'b']
      ⟨FType.file, some 1, 0, 0⟩ rfl rfl).2.2 ['a'] (by decide)).1⟩

theorem mem_ancestors_cases {q p : Path} (hq : q ∈ ancestors p) :
    parentOf p ≠ [] ∧ (q = parentOf p ∨ q ∈ ancestors (parentOf p)) := by
  have hne := splitSlash_ne_nil p
  have hpos : 0 < (splitSlash p).length := List.length_pos.mpr hne
  rw [ancestors] at hq
  obtain ⟨n, hn⟩ : ∃ n, (splitSlash p).length = n + 1 :=
    ⟨(splitSlash p).length - 1, by omega⟩
  rw [hn, ancestorChain] at hq
  by_cases hpar : (parentOf p).isEmpty
  · rw [if_pos hpar] at hq
    simp at hq
  · rw [if_neg hpar] at hq
    have hpar' : parentOf p ≠ [] := fun h => hpar ((isEmpty_eq_nil _).mpr h)
    refine ⟨hpar', ?_⟩
    rcases List.mem_cons.mp hq with h1 | h1
    · exact Or.inl h1
    · right
      rw [ancestors]
      have hlen : (splitSlash (parentOf p)).length = n := by
        rw [splitSlash_parentOf hpar', List.length_dropLast, hn]
        omega
      rw [hlen]
      exact h1

theorem mem_ancestors_ne {q p : Path} (hq : q ∈ ancestors p) : q ≠ p := by
  intro h
  rw [ancestors] at hq
  have := mem_ancestorChain_length hq
  rw [h] at this
  omega

/-- C3 (amended): a File entry can acquire children (`mkdir` leaves a
pre-existing file row in place), so in a reachable state the parent of
an entry need not be a Directory entry; what does hold is that right
after `writeFile p C` every proper ancestor of `p` is present as an
entry, and every ancestor that was absent beforehand was just created
as a Directory entry — in particular, on a fresh store every ancestor
of a written path stats as a Directory. -/
theorem writeFile_ensures_ancestors (st : DOState) (now : Nat) (p : Path) (C : Bytes)
    (q : Path) (hq : q ∈ ancestors p) :
    (findRow q (writeFile now p C st).files).isSome ∧
      (findRow q st.files = none →
        findRow q (writeFile now p C st).files = some ⟨FType.directory, none, now, now⟩) := by
  obtain ⟨hpar, hcase⟩ := mem_ancestors_cases hq
  have hparE : ¬(parentOf p).isEmpty = true := fun h => hpar ((isEmpty_eq_nil _).mp h)
  have hqp : q ≠ p := mem_ancestors_ne hq
  have hwf : findRow q (writeFile now p C st).files =
      findRow q (mkdir now (parentOf p) st).files := by
    show findRow q (upsertFile p C.length now
      (if (parentOf p).isEmpty then st else mkdir now (parentOf p) st).files) = _
    rw [if_neg hparE, findRow_upsertFile_other hqp]
  rw [hwf]
  rcases hcase with h1 | h1
  · subst h1
    constructor
    · exact findRow_mkdirAux_self_isSome now _ (parentOf p) st
    · intro hnone
      exact findRow_mkdirAux_self_of_none _ (parentOf p) st hnone
  · exact mkdirAux_ensures_ancestors _ (parentOf p) st h1

/-- Witness for C3 (amended): after `writeFile "a/b/c.txt"` on the
empty store, the ancestor `"a/b"` was created as a Directory entry. -/
theorem writeFile_ensures_ancestors_witness :
    (['a', '/', 'b'] ∈ ancestors ['a', '/', 'b', '/', 'c', '.', 't', 'x', 't']) ∧
      findRow ['a', '/', 'b']
        (writeFile 0 ['a', '/', 'b', '/', 'c', '.', 't', 'x', 't'] [1] emptyState).files =
        some ⟨FType.directory, none, 0, 0⟩ :=
  ⟨by decide,
    (writeFile_ensures_ancestors emptyState 0 ['a', '/', 'b', '/', 'c', '.', 't', 'x', 't']
      [1] ['a', '/', 'b'] (by decide)).2 rfl⟩

/-- C3 counterexample: `writeFile "a" []` then `writeFile "a/b" []` —
both operations succeed — leave a state holding the non-root entry
`"a/b"` whose parent path `"a"` is present as a File entry, not a
Directory entry, refuting the claimed ancestor-closure invariant. -/
theorem parent_not_directory_counterexample :
    (findRow ['a', '/', 'b']
        (writeFile 1 ['a', '/', 'b'] [] (writeFile 0 ['a'] [] emptyState)).files).isSome =
        true ∧
      findRow ['a'] (writeFile 1 ['a', '/', 'b'] [] (writeFile 0 ['a'] [] emptyState)).files =
        some ⟨FType.file, some 0, 0, 0⟩ := by
  decide

/-- C2 at its failing input: after `mkdir "d"` then `writeFile "d" [42]`
— both successful — the `files` row at `"d"` still has kind Directory
(the upsert's `ON CONFLICT` clause updates only `size` and
`updated_at`, never `type`) while one block row for `"d"` now exists,
so a Directory entry owns a block, contradicting the claimed
invariant. -/
theorem directory_with_blocks_failing_input :
    findRow ['d'] (writeFile 1 ['d'] [42] (mkdir 0 ['d'] emptyState)).files =
        some ⟨FType.directory, some 1, 0, 1⟩ ∧
      (writeFile 1 ['d'] [42] (mkdir 0 ['d'] emptyState)).blocks = [((['d'], 0), [42])] := by
  decide

/-! ### Key uniqueness (the `path` PRIMARY KEY) and unlink -/

theorem keys_nodup_unique :
    ∀ {fs : List (Path × Entry)}, (fs.map Prod.fst).Nodup →
      ∀ {p : Path} {e1 e2 : Entry}, (p, e1) ∈ fs → (p, e2) ∈ fs → e1 = e2
  | [], _, _, _, _, h1, _ => by simp at h1
  | (q, e') :: rest, hnodup, p, e1, e2, h1, h2 => by
    rw [List.map_cons, List.nodup_cons] at hnodup
    rcases List.mem_cons.mp h1 with g1 | g1 <;> rcases List.mem_cons.mp h2 with g2 | g2
    · rw [(Prod.mk.injEq _ _ _ _).mp g1 |>.2, (Prod.mk.injEq _ _ _ _).mp g2 |>.2]
    · obtain ⟨hp, he⟩ := Prod.mk.injEq _ _ _ _ |>.mp g1
      exact absurd (List.mem_map.mpr ⟨(p, e2), g2, by simp [hp]⟩) hnodup.1
    · obtain ⟨hp, he⟩ := Prod.mk.injEq _ _ _ _ |>.mp g2
      exact absurd (List.mem_map.mpr ⟨(p, e1), g1, by simp [hp]⟩) hnodup.1
    · exact keys_nodup_unique hnodup.2 g1 g2

theorem length_filter_lt {α : Type} (f : α → Bool) {a : α} :
    ∀ {l : List α}, a ∈ l → f a = false → (l.filter f).length < l.length := by
  intro l
  induction l with
  | nil => intro h; simp at h
  | cons x rest ih =>
    intro ha hfa
    rw [List.filter_cons]
    rcases List.mem_cons.mp ha with h1 | h1
    · subst h1
      rw [if_neg (by simp [hfa])]
      have := List.length_filter_le f rest
      simp only [List.length_cons]
      omega
    · by_cases hx : f x
      · rw [if_pos (by simp [hx])]
        have := ih h1 hfa
        simp only [List.length_cons]
        omega
      · rw [if_neg (by simpa using hx)]
        have := List.length_filter_le f rest
        simp only [List.length_cons]
        omega

/-- C5: on a state whose catalog keys are unique (the `path` PRIMARY
KEY) holding a File entry at `p`, `unlink p` succeeds and removes both
the entry and — through the `ON DELETE CASCADE` — every block row for
`p`: afterwards `stat p` fails with `ENOENT` and no block row for `p`
is queryable, whatever the number of blocks the file spanned. -/
theorem unlink_removes_entry_and_blocks (st : DOState) (p : Path) (e : Entry)
    (hnodup : (st.files.map Prod.fst).Nodup)
    (hrow : findRow p st.files = some e) (hfile : e.type = FType.file) :
    ∃ st', unlink p st = Except.ok st' ∧
      findRow p st'.files = none ∧
      blocksFor p st'.blocks = [] ∧
      stat p st' = Except.error FSError.ENOENT := by
  have hmem : (p, e) ∈ st.files := findRow_mem hrow
  have hfalse : (fun r : Path × Entry => !decide (r.1 = p ∧ r.2.type = FType.file)) (p, e) =
      false := by
    simp [hfile]
  have hlt := length_filter_lt
    (fun r : Path × Entry => !decide (r.1 = p ∧ r.2.type = FType.file)) hmem hfalse
  have hnone : findRow p (st.files.filter
      (fun r => !decide (r.1 = p ∧ r.2.type = FType.file))) = none := by
    apply findRow_eq_none
    intro e' he'
    obtain ⟨hmem', hcond⟩ := List.mem_filter.mp he'
    have : e' = e := keys_nodup_unique hnodup hmem' hmem
    subst this
    simp [hfile] at hcond
  refine ⟨⟨st.files.filter (fun r => !decide (r.1 = p ∧ r.2.type = FType.file)),
      deleteBlocksFor p st.blocks⟩, ?_, hnone, blocksFor_deleteBlocksFor p st.blocks, ?_⟩
  · rw [unlink, if_neg (by omega)]
  · rw [stat]
    simp only [hnone]

theorem writeFile_singleSeg_files (now : Nat) (C : Bytes) :
    (writeFile now ['f'] C emptyState).files =
      [(['f'], ⟨FType.file, some C.length, now, now⟩)] := rfl

/-! ### SQLite LIKE matching lemmas -/

theorem likeFuel_mono :
    ∀ (f : Nat), ∀ {g : Nat} {pat s : Path},
      pat.length + s.length < f → f ≤ g → likeFuel f pat s = likeFuel g pat s := by
  intro f
  induction f with
  | zero =>
    intro g pat s h _
    exact absurd h (Nat.not_lt_zero _)
  | succ f ih =>
    intro g pat s h hle
    obtain ⟨g', rfl⟩ : ∃ g', g = g' + 1 := ⟨g - 1, by omega⟩
    cases pat with
    | nil => rw [likeFuel, likeFuel]
    | cons c ps =>
      simp only [List.length_cons, List.length_nil] at h
      cases s with
      | nil =>
        rw [likeFuel, likeFuel]
        by_cases hc : c = '%'
        · have h1 : likeFuel f ps [] = likeFuel g' ps [] :=
            ih (by simp only [List.length_nil]; omega) (by omega)
          rw [if_pos hc, if_pos hc, h1]
        · rw [if_neg hc, if_neg hc]
      | cons d s' =>
        simp only [List.length_cons] at h
        rw [likeFuel, likeFuel]
        by_cases hc : c = '%'
        · have h1 : likeFuel f ps (d :: s') = likeFuel g' ps (d :: s') :=
            ih (by simp only [List.length_cons]; omega) (by omega)
          have h2 : likeFuel f (c :: ps) s' = likeFuel g' (c :: ps) s' :=
            ih (by simp only [List.length_cons]; omega) (by omega)
          rw [if_pos hc, if_pos hc, h1, h2]
        · have h1 : likeFuel f ps s' = likeFuel g' ps s' :=
            ih (by omega) (by omega)
          rw [if_neg hc, if_neg hc, h1]

theorem likeFuel_eq_likeMatch {f : Nat} {pat s : Path} (h : pat.length + s.length < f) :
    likeFuel f pat s = likeMatch pat s := by
  rw [likeMatch]
  rcases Nat.le_total f (pat.length + s.length + 1) with hle | hle
  · exact likeFuel_mono f h hle
  · exact (likeFuel_mono (pat.length + s.length + 1) (by omega) hle).symm

theorem likeMatch_nil (s : Path) : likeMatch [] s = s.isEmpty := by
  rw [likeMatch]
  have hf : ([] : Path).length + s.length + 1 = s.length + 1 := by simp
  rw [hf, likeFuel]

theorem likeMatch_percent_nil (ps : Path) : likeMatch ('%' :: ps) [] = likeMatch ps [] := by
  rw [likeMatch]
  have hf : ('%' :: ps).length + ([] : Path).length + 1 = (ps.length + 1) + 1 := by simp
  rw [hf, likeFuel, if_pos rfl]
  exact likeFuel_eq_likeMatch (by simp)

theorem likeMatch_percent_cons (ps : Path) (d : Char) (s : Path) :
    likeMatch ('%' :: ps) (d :: s) = (likeMatch ps (d :: s) || likeMatch ('%' :: ps) s) := by
  rw [likeMatch]
  have hf : ('%' :: ps).length + (d :: s).length + 1 =
      (ps.length + s.length + 2) + 1 := by simp; omega
  rw [hf, likeFuel, if_pos rfl,
    likeFuel_eq_likeMatch (by simp only [List.length_cons]; omega),
    likeFuel_eq_likeMatch (by simp only [List.length_cons]; omega)]

theorem likeMatch_lit_nil {c : Char} (ps : Path) (hc : c ≠ '%') :
    likeMatch (c :: ps) [] = false := by
  rw [likeMatch]
  have hf : (c :: ps).length + ([] : Path).length + 1 = (ps.length + 1) + 1 := by simp
  rw [hf, likeFuel, if_neg hc]

theorem likeMatch_lit_cons {c : Char} (ps : Path) (d : Char) (s : Path)
    (hc : c ≠ '%') (hc2 : c ≠ '_') :
    likeMatch (c :: ps) (d :: s) = ((lowerChar c == lowerChar d) && likeMatch ps s) := by
  rw [likeMatch]
  have hf : (c :: ps).length + (d :: s).length + 1 =
      (ps.length + s.length + 2) + 1 := by simp; omega
  rw [hf, likeFuel, if_neg hc, if_neg hc2,
    likeFuel_eq_likeMatch (by omega)]

theorem likeMatch_percent_univ (s : Path) : likeMatch ['%'] s = true := by
  induction s with
  | nil => rw [likeMatch_percent_nil, likeMatch_nil]; rfl
  | cons d s' ih => rw [likeMatch_percent_cons, ih, Bool.or_true]

/-! ### lowerChar facts -/

theorem toNat_lowerChar_of_upper {c : Char} (h1 : 65 ≤ c.toNat) (h2 : c.toNat ≤ 90) :
    (lowerChar c).toNat = c.toNat + 32 := by
  rw [lowerChar, if_pos ⟨h1, h2⟩]
  have hv : (c.toNat + 32).isValidChar := Or.inl (by omega)
  rw [Char.ofNat, dif_pos hv]
  rfl

theorem lowerChar_eq_slash_iff (c : Char) : lowerChar c = '/' ↔ c = '/' := by
  constructor
  · intro h
    by_cases hc : 65 ≤ c.toNat ∧ c.toNat ≤ 90
    · exfalso
      have h2 := congrArg Char.toNat h
      rw [toNat_lowerChar_of_upper hc.1 hc.2] at h2
      have h3 : Char.toNat '/' = 47 := rfl
      omega
    · rwa [lowerChar, if_neg hc] at h
  · intro h
    subst h
    rfl

theorem slash_mem_low (s : Path) : '/' ∈ low s ↔ '/' ∈ s := by
  rw [low]
  constructor
  · intro h
    obtain ⟨d, hd, hde⟩ := List.mem_map.mp h
    exact (lowerChar_eq_slash_iff d).mp hde ▸ hd
  · intro h
    exact List.mem_map.mpr ⟨'/', h, rfl⟩

theorem low_append (a b : Path) : low (a ++ b) = low a ++ low b := List.map_append _ a b

theorem noWild_cons {c : Char} {P : Path} (h : noWild (c :: P) = true) :
    c ≠ '%' ∧ c ≠ '_' ∧ noWild P = true := by
  rw [noWild, List.all_cons, Bool.and_eq_true, decide_eq_true_eq] at h
  exact ⟨h.1.1, h.1.2, h.2⟩

theorem noWild_append_slash {P : Path} (h : noWild P = true) :
    noWild (P ++ ['/']) = true := by
  rw [noWild, List.all_append] at *
  rw [h]
  rfl

/-- LIKE pattern `P ++ "%"` for a wildcard-free `P` matches exactly the
strings whose ASCII-lowering extends the lowering of `P`. -/
theorem likeMatch_lit_percent :
    ∀ (P : Path), noWild P = true → ∀ (s : Path),
      (likeMatch (P ++ ['%']) s = true ↔ ∃ t, low s = low P ++ t)
  | [], _, s => by
    rw [List.nil_append]
    constructor
    · intro _
      exact ⟨low s, by simp [low]⟩
    · intro _
      exact likeMatch_percent_univ s
  | c :: P', hW, s => by
    obtain ⟨hc1, hc2, hW'⟩ := noWild_cons hW
    cases s with
    | nil =>
      rw [List.cons_append, likeMatch_lit_nil _ hc1]
      constructor
      · intro h
        simp at h
      · intro ⟨t, ht⟩
        simp [low] at ht
    | cons d s' =>
      rw [List.cons_append, likeMatch_lit_cons _ d s' hc1 hc2, Bool.and_eq_true, beq_iff_eq]
      constructor
      · intro ⟨hcd, hrest⟩
        obtain ⟨t, ht⟩ := (likeMatch_lit_percent P' hW' s').mp hrest
        exact ⟨t, by simp [low] at ht ⊢; exact ⟨hcd.symm, ht⟩⟩
      · intro ⟨t, ht⟩
        simp only [low, List.map_cons, List.cons_append, List.cons.injEq] at ht
        refine ⟨ht.1.symm, ?_⟩
        exact (likeMatch_lit_percent P' hW' s').mpr ⟨t, ht.2⟩

/-- LIKE pattern `"%/%"` matches exactly the strings containing a
slash. -/
theorem likeMatch_percent_slash_percent (s : Path) :
    likeMatch ['%', '/', '%'] s = true ↔ '/' ∈ s := by
  induction s with
  | nil =>
    rw [likeMatch_percent_nil, likeMatch_lit_nil _ (by decide)]
    simp
  | cons d s' ih =>
    rw [likeMatch_percent_cons, likeMatch_lit_cons _ d s' (by decide) (by decide),
      Bool.or_eq_true, Bool.and_eq_true, beq_iff_eq]
    constructor
    · intro h
      rcases h with ⟨hd, _⟩ | h
      · have : d = '/' := by
          have := (lowerChar_eq_slash_iff d).mp
          rw [show lowerChar '/' = '/' from rfl] at hd
          exact this hd.symm
        rw [this]
        exact List.mem_cons_self _ _
      · exact List.mem_cons_of_mem d (ih.mp h)
    · intro h
      rcases List.mem_cons.mp h with h1 | h1
      · left
        refine ⟨?_, likeMatch_percent_univ s'⟩
        rw [← h1]
      · right
        exact ih.mpr h1

/-- LIKE pattern `P ++ "%/%"` for a wildcard-free `P`: the lowering of
`s` extends the lowering of `P` by a part containing a slash. -/
theorem likeMatch_lit_percent_slash_percent :
    ∀ (P : Path), noWild P = true → ∀ (s : Path),
      (likeMatch (P ++ ['%', '/', '%']) s = true ↔
        ∃ u v, low s = low P ++ u ++ '/' :: v)
  | [], _, s => by
    rw [List.nil_append, likeMatch_percent_slash_percent]
    constructor
    · intro h
      have hmem : '/' ∈ low s := (slash_mem_low s).mpr h
      obtain ⟨u, v, huv⟩ := List.append_of_mem hmem
      exact ⟨u, v, by simpa [low] using huv⟩
    · intro ⟨u, v, huv⟩
      apply (slash_mem_low s).mp
      rw [huv]
      simp [low]
  | c :: P', hW, s => by
    obtain ⟨hc1, hc2, hW'⟩ := noWild_cons hW
    cases s with
    | nil =>
      rw [List.cons_append, likeMatch_lit_nil _ hc1]
      constructor
      · intro h
        simp at h
      · intro ⟨u, v, huv⟩
        simp [low] at huv
    | cons d s' =>
      rw [List.cons_append, likeMatch_lit_cons _ d s' hc1 hc2, Bool.and_eq_true, beq_iff_eq]
      constructor
      · intro ⟨hcd, hrest⟩
        obtain ⟨u, v, huv⟩ := (likeMatch_lit_percent_slash_percent P' hW' s').mp hrest
        refine ⟨u, v, ?_⟩
        simp only [low, List.map_cons, List.cons_append, List.cons.injEq]
        exact ⟨hcd.symm, huv⟩
      · intro ⟨u, v, huv⟩
        simp only [low, List.map_cons, List.cons_append, List.cons.injEq] at huv
        refine ⟨huv.1.symm, ?_⟩
        exact (likeMatch_lit_percent_slash_percent P' hW' s').mpr ⟨u, v, huv.2⟩

theorem low_append_slash (p : Path) : low (p ++ ['/']) = low p ++ ['/'] := by
  rw [low_append]
  rfl

/-- The `rmdir`/`readdir` child pattern `p ++ "/%"`, for wildcard-free
`p`: `q` matches iff its lowering extends `low p ++ "/"`. -/
theorem likeMatch_child_pattern (p : Path) (hp : noWild p = true) (q : Path) :
    likeMatch (p ++ ['/', '%']) q = true ↔ ∃ t, low q = low p ++ '/' :: t := by
  have h1 : p ++ ['/', '%'] = (p ++ ['/']) ++ ['%'] := by simp
  rw [h1, likeMatch_lit_percent (p ++ ['/']) (noWild_append_slash hp) q, low_append_slash]
  simp only [List.append_assoc, List.cons_append, List.nil_append]

/-- The `readdir` exclusion pattern `p ++ "/%/%"`, for wildcard-free
`p`: `q` matches iff its lowering is `low p ++ "/"` followed by a part
containing another slash. -/
theorem likeMatch_grandchild_pattern (p : Path) (hp : noWild p = true) (q : Path) :
    likeMatch (p ++ ['/', '%', '/', '%']) q = true ↔
      ∃ u v, low q = low p ++ '/' :: (u ++ '/' :: v) := by
  have h1 : p ++ ['/', '%', '/', '%'] = (p ++ ['/']) ++ ['%', '/', '%'] := by simp
  rw [h1, likeMatch_lit_percent_slash_percent (p ++ ['/']) (noWild_append_slash hp) q,
    low_append_slash]
  simp only [List.append_assoc, List.cons_append, List.nil_append]

/-- C6 (amended): since `rmdir` interpolates the raw path into a SQL
LIKE pattern, `%` and `_` in the path act as wildcards and matching is
ASCII-case-insensitive; for a path `p` free of LIKE metacharacters,
`rmdir p` fails with NotEmpty iff some entry's path begins, up to ASCII
case, with `p ++ "/"`. -/
theorem rmdir_notEmpty_iff (st : DOState) (p : Path) (hp : noWild p = true) :
    rmdir p st = Except.error FSError.ENOTEMPTY ↔
      ∃ r ∈ st.files, ∃ t, low r.1 = low p ++ '/' :: t := by
  by_cases hg : st.files.any (fun r => likeMatch (p ++ ['/', '%']) r.1) = true
  · rcases List.any_eq_true.mp hg with ⟨r, hr, hlike⟩
    obtain ⟨t, ht⟩ := (likeMatch_child_pattern p hp r.1).mp hlike
    rw [rmdir, if_pos hg]
    exact iff_of_true rfl ⟨r, hr, t, ht⟩
  · apply iff_of_false
    · intro h
      simp only [rmdir, if_neg hg] at h
      split at h <;> simp at h
    · intro ⟨r, hr, t, ht⟩
      exact hg (List.any_eq_true.mpr
        ⟨r, hr, (likeMatch_child_pattern p hp r.1).mpr ⟨t, ht⟩⟩)

/-- Witness for C6 (amended): `rmdir "x"` with the child `"x/y"`
present fails with NotEmpty, matching the prefix characterisation. -/
theorem rmdir_notEmpty_iff_witness :
    noWild ['x'] = true ∧
      (rmdir ['x'] (mkdir 0 ['x', '/', 'y'] emptyState) = Except.error FSError.ENOTEMPTY ↔
        ∃ r ∈ (mkdir 0 ['x', '/', 'y'] emptyState).files,
          ∃ t, low r.1 = low ['x'] ++ '/' :: t) :=
  ⟨by decide, rmdir_notEmpty_iff (mkdir 0 ['x', '/', 'y'] emptyState) ['x'] (by decide)⟩

/-- C6 counterexample: with entries `"ab"` and `"ab/c"` present (from
`mkdir "ab/c"`), `rmdir "a%"` fails with NotEmpty — the `%` in the path
acts as a LIKE wildcard — although no entry's path begins with
`"a%/"`, refuting the claimed equivalence for paths containing LIKE
wildcard characters. -/
theorem rmdir_notEmpty_wildcard_counterexample :
    rmdir ['a', '%'] (mkdir 0 ['a', 'b', '/', 'c'] emptyState) =
        Except.error FSError.ENOTEMPTY ∧
      (mkdir 0 ['a', 'b', '/', 'c'] emptyState).files.all
        (fun r => !decide (r.1.take 3 = ['a', '%', '/'])) = true := by
  decide

/-! ### readdir characterisation -/

theorem isChildOf_iff (p q : Path) :
    isChildOf p q = true ↔ ∃ t, low q = low p ++ '/' :: t ∧ '/' ∉ t := by
  rw [isChildOf]
  simp only [Bool.and_eq_true, decide_eq_true_eq, Bool.not_eq_true', decide_eq_false_iff_not]
  constructor
  · intro ⟨htake, hmem⟩
    refine ⟨(low q).drop ((low p).length + 1), ?_, hmem⟩
    have hsplit := List.take_append_drop ((low p).length + 1) (low q)
    rw [htake] at hsplit
    rw [← hsplit]
    simp
  · intro ⟨t, ht, hmem⟩
    have hform : low p ++ '/' :: t = (low p ++ ['/']) ++ t := by simp
    have hlen : (low p ++ ['/']).length = (low p).length + 1 := by simp
    constructor
    · rw [ht, hform, ← hlen, List.take_left]
    · rw [ht, hform, ← hlen, List.drop_left]
      exact hmem

theorem like_child_filter (p : Path) (hp : noWild p = true) (q : Path) :
    (likeMatch (p ++ ['/', '%']) q && !likeMatch (p ++ ['/', '%', '/', '%']) q) =
      isChildOf p q := by
  cases hchild : isChildOf p q
  · cases hand : (likeMatch (p ++ ['/', '%']) q && !likeMatch (p ++ ['/', '%', '/', '%']) q)
    · rfl
    · exfalso
      rw [Bool.and_eq_true] at hand
      obtain ⟨h1, h2⟩ := hand
      obtain ⟨t, ht⟩ := (likeMatch_child_pattern p hp q).mp h1
      have hno : '/' ∉ t := by
        intro hmem
        obtain ⟨u, v, huv⟩ := List.append_of_mem hmem
        have hgc : likeMatch (p ++ ['/', '%', '/', '%']) q = true :=
          (likeMatch_grandchild_pattern p hp q).mpr ⟨u, v, by rw [ht, huv]⟩
        rw [hgc] at h2
        simp at h2
      have : isChildOf p q = true := (isChildOf_iff p q).mpr ⟨t, ht, hno⟩
      rw [hchild] at this
      simp at this
  · obtain ⟨t, ht, hno⟩ := (isChildOf_iff p q).mp hchild
    have h1 : likeMatch (p ++ ['/', '%']) q = true :=
      (likeMatch_child_pattern p hp q).mpr ⟨t, ht⟩
    have h2 : likeMatch (p ++ ['/', '%', '/', '%']) q = false := by
      cases h2c : likeMatch (p ++ ['/', '%', '/', '%']) q
      · rfl
      · exfalso
        obtain ⟨u, v, huv⟩ := (likeMatch_grandchild_pattern p hp q).mp h2c
        rw [ht] at huv
        have hcons : ('/' :: t : Path) = '/' :: (u ++ '/' :: v) :=
          List.append_cancel_left huv
        have ht2 : t = u ++ '/' :: v := by
          injection hcons
        exact hno (ht2 ▸ (by simp : '/' ∈ u ++ '/' :: v))
    rw [h1, h2]
    rfl

theorem getLastD_mem {α : Type} (d : α) : ∀ (l : List α), l ≠ [] → l.getLastD d ∈ l
  | [], h => absurd rfl h
  | [a], _ => by simp [List.getLastD]
  | a :: b :: t, _ => by
    have hmem := getLastD_mem a (b :: t) (by simp)
    simp only [List.getLastD]
    exact List.mem_cons_of_mem _ hmem

theorem lastSegment_no_slash (q : Path) : '/' ∉ lastSegment q := by
  rw [lastSegment]
  exact mem_splitSlash_no_slash q _ (getLastD_mem [] (splitSlash q) (splitSlash_ne_nil q))

/-- C7 (amended): every name `readdir` returns is the final path
segment of an entry and never contains a separator; moreover, since the
path is interpolated into SQL LIKE patterns (wildcards, ASCII case
folding), for `p` free of LIKE metacharacters the listing consists of
exactly the final segments of the entries lying, up to ASCII case,
exactly one segment below `p`. -/
theorem readdir_children (st : DOState) (p : Path) (out : List Path)
    (h : readdir p st = Except.ok out) :
    (∀ n ∈ out, '/' ∉ n) ∧
      (noWild p = true →
        out = (st.files.filter (fun r => isChildOf p r.1)).map
          (fun r => lastSegment r.1)) := by
  rw [readdir] at h
  by_cases hg : st.files.any (fun r => decide (r.1 = p ∧ r.2.type = FType.directory)) = true
  · rw [if_pos hg] at h
    obtain rfl := Except.ok.inj h
    constructor
    · intro n hn
      obtain ⟨r, _, rfl⟩ := List.mem_map.mp hn
      exact lastSegment_no_slash r.1
    · intro hp
      congr 1
      apply List.filter_congr
      intro r _
      exact like_child_filter p hp r.1
  · rw [if_neg hg] at h
    simp at h

/-- Witness for C7 (amended): after `mkdir "x/y/z"`, `readdir "x"`
returns exactly `["y"]`, a separator-free name, matching the
child-entry characterisation. -/
theorem readdir_children_witness :
    readdir ['x'] (mkdir 0 ['x', '/', 'y', '/', 'z'] emptyState) = Except.ok [['y']] ∧
      '/' ∉ ['y'] ∧
      [['y']] = ((mkdir 0 ['x', '/', 'y', '/', 'z'] emptyState).files.filter
        (fun r => isChildOf ['x'] r.1)).map (fun r => lastSegment r.1) :=
  ⟨by decide,
    (readdir_children (mkdir 0 ['x', '/', 'y', '/', 'z'] emptyState) ['x'] [['y']]
      (by decide)).1 ['y'] (by decide),
    (readdir_children (mkdir 0 ['x', '/', 'y', '/', 'z'] emptyState) ['x'] [['y']]
      (by decide)).2 (by decide)⟩

/-- C7 counterexample: with the directory `"a%"` and the entries
`"ab"`, `"ab/c"` present, `readdir "a%"` returns `["c"]` — the `%`
acts as a LIKE wildcard — although no entry lies one segment below
`"a%"` (no path begins with `"a%/"`), refuting the claimed
characterisation for every path. -/
theorem readdir_wildcard_counterexample :
    readdir ['a', '%'] (mkdir 1 ['a', 'b', '/', 'c'] (mkdir 0 ['a', '%'] emptyState)) =
        Except.ok [['c']] ∧
      (mkdir 1 ['a', 'b', '/', 'c'] (mkdir 0 ['a', '%'] emptyState)).files.all
        (fun r => !decide (r.1.take 3 = ['a', '%', '/'])) = true := by
  decide

/-- Witness for C5: unlinking a freshly written two-block (4097-byte)
file empties both its catalog row and its block rows. -/
theorem unlink_removes_entry_and_blocks_witness :
    ∃ st', unlink ['f'] (writeFile 0 ['f'] (List.replicate 4097 9) emptyState) =
        Except.ok st' ∧
      findRow ['f'] st'.files = none ∧
      blocksFor ['f'] st'.blocks = [] ∧
      stat ['f'] st' = Except.error FSError.ENOENT :=
  unlink_removes_entry_and_blocks (writeFile 0 ['f'] (List.replicate 4097 9) emptyState)
    ['f'] ⟨FType.file, some (List.replicate 4097 9).length, 0, 0⟩
    (by rw [writeFile_singleSeg_files]; exact List.nodup_singleton _)
    (writeFile_findRow_fresh 0 (List.replicate 4097 9) rfl) rfl

end VFS
